import Mathlib

/-!
# dupes: duplicate-file grouping and resolution

A shallow embedding of `file/file.go` (the `File` record, `New`, `AddPath`,
`Keep`, `Index`, `Valid`, `ReadTree`, `Count`) and of the run loop of
`cmd/root.go`, followed by the properties proved about them.

Conventions of the embedding:

* Go `int` values that can be negative (`idx`, file sizes) are `Int`.
* `map[string]*File` is an association list with at most one entry per key,
  read with `Registry.get` and written with `Registry.set`.
* The filesystem seen by `os.Remove` is the record `FS`; the directory walk of
  `filepath.Walk` is the list of entries it hands to the callback, each entry
  carrying what `fs.IsSymlink`, `os.Stat` and `Hash` answer for its path.
* Standard-library results (`os.Remove`, `strconv.Atoi`) follow their Go
  documentation.
-/

namespace Dupes

/-! ## Errors -/

/-- Error values that flow through the program. -/
inductive Err where
  /-- The error built by `fmt.Errorf("Error: Invalid index: [%d]", idx)` in `Keep`. -/
  | invalidIndex (idx : Int)
  /-- An `*os.PathError`: operation, path, reason. -/
  | path (op : String) (p : String) (reason : String)
  /-- A `*strconv.NumError` of `strconv.Atoi`: input and reason. -/
  | num (s : String) (reason : String)
  deriving DecidableEq

/-! ## The filesystem as seen by `os.Remove` -/

/-- Filesystem state: the paths that exist, the paths whose removal the system
refuses, and the record of the paths `os.Remove` has been called on (oldest first). -/
structure FS where
  present : List String
  locked : List String
  log : List String
  deriving DecidableEq

/-- Go `os.Remove(p)`: records the call; fails when `p` does not exist or its removal
is refused, and otherwise deletes `p`. -/
def FS.Remove (fs : FS) (p : String) : FS × Option Err :=
  let fs1 : FS := { fs with log := fs.log ++ [p] }
  if p ∈ fs.present then
    if p ∈ fs.locked then
      (fs1, some (Err.path "remove" p "operation not permitted"))
    else
      ({ fs1 with present := fs.present.filter (fun q => q ≠ p) }, none)
  else
    (fs1, some (Err.path "remove" p "no such file or directory"))

/-! ## `file.File` -/

/-- The Go struct `File`: a digest and the paths whose content has that digest. -/
structure File where
  Hash : String
  Paths : List String
  deriving DecidableEq

/-- Go `New(hash, path)`. -/
def New (hash path : String) : File :=
  { Hash := hash, Paths := [path] }

/-- Go `(*File).AddPath(path)`: `f.Paths = append(f.Paths, path)`. -/
def File.AddPath (f : File) (path : String) : File :=
  { f with Paths := f.Paths ++ [path] }

/-- The loop `for i := range f.Paths` of `Keep`, from position `i` on, where `ps`
are the paths at positions `i, i+1, ...`: the first failing removal returns. -/
def keepLoop (idx : Int) : Nat → List String → FS → FS × Option Err
  | _, [], fs => (fs, none)
  | i, p :: ps, fs =>
    if (i : Int) ≠ idx then
      match fs.Remove p with
      | (fs1, some err) => (fs1, some err)
      | (fs1, none) => keepLoop idx (i + 1) ps fs1
    else
      keepLoop idx (i + 1) ps fs

/-- Go `(*File).Keep(idx)`. The result is the filesystem afterwards and the returned
error (`none` is Go's `nil`). -/
def File.Keep (f : File) (idx : Int) (fs : FS) : FS × Option Err :=
  if idx > (f.Paths.length : Int) then
    (fs, some (Err.invalidIndex idx))
  else
    keepLoop idx 0 f.Paths fs

/-- The loop of `Index`, from position `i` on. -/
def indexLoop : Nat → List String → List String
  | _, [] => []
  | i, p :: ps => ("[" ++ toString i ++ "] " ++ p) :: indexLoop (i + 1) ps

/-- Go `(*File).Index()`: the strings `[i] path`. -/
def File.Index (f : File) : List String :=
  indexLoop 0 f.Paths

/-! ## The directory walk -/

/-- One call of the `filepath.Walk` callback, with what the system answers for
its path: `walkErr` is the callback's `err` argument, `name` is `f.Name()`,
`symlink` the result of `fs.IsSymlink(path)`, `stat` the result of
`os.Stat(path)` as `(IsDir, Size)`, and `hash` the result of `Hash(path)`. -/
structure Entry where
  path : String
  name : String
  walkErr : Option Err
  symlink : Except Err Bool
  stat : Except Err (Bool × Int)
  hash : Except Err String

/-- Go `Valid(path)`. -/
def Valid (e : Entry) : Bool :=
  match e.symlink with
  | .error _ => false
  | .ok true => false
  | .ok false =>
    match e.stat with
    | .error _ => false
    | .ok (isDir, size) => !isDir && decide (size > 0) && decide (size < 500000000)

/-- Go `strings.HasPrefix(f.Name(), ".")`. -/
def dotName (e : Entry) : Bool :=
  (".".data).isPrefixOf e.name.data

/-- The filter shared by the callbacks of `ReadTree` and `Count`: the entry
passes `err == nil && Valid(path)` and is not skipped as a dotfile. -/
def eligible (ignoreDot : Bool) (e : Entry) : Bool :=
  (e.walkErr.isNone && Valid e) && !(ignoreDot && dotName e)

/-! ## The registry `map[string]*File` -/

/-- The map from digest to group. -/
abbrev Registry := List (String × File)

/-- Map read `h[k]` with its `ok` flag. -/
def Registry.get : Registry → String → Option File
  | [], _ => none
  | (k1, f) :: t, k => if k1 = k then some f else Registry.get t k

/-- Map write `h[k] = f`: replaces the entry of `k`, or adds one. -/
def Registry.set : Registry → String → File → Registry
  | [], k, f => [(k, f)]
  | (k1, f1) :: t, k, f => if k1 = k then (k, f) :: t else (k1, f1) :: Registry.set t k f

/-- State of the walk in `ReadTree`: the map `h`, the slice `errors`, and the
number of `bar.Increment()` calls. -/
structure Scan where
  h : Registry
  errors : List Err
  bar : Nat

/-- The callback passed to `filepath.Walk` in `ReadTree`. -/
def readStep (ignoreDot : Bool) (s : Scan) (e : Entry) : Scan :=
  if e.walkErr.isNone && Valid e then
    if ignoreDot && dotName e then
      s
    else
      match e.hash with
      | .error err => { s with errors := s.errors ++ [err], bar := s.bar + 1 }
      | .ok sum =>
        match s.h.get sum with
        | none => { s with h := s.h.set sum (New sum e.path), bar := s.bar + 1 }
        | some f => { s with h := s.h.set sum (f.AddPath e.path), bar := s.bar + 1 }
  else
    s

/-- The walk of `ReadTree` over the entries `filepath.Walk` yields. -/
def scanTree (walk : List Entry) (ignoreDot : Bool) : Scan :=
  walk.foldl (readStep ignoreDot) { h := [], errors := [], bar := 0 }

/-- Go `ReadTree(dir, ignoreDot)`: the map and the errors. -/
def ReadTree (walk : List Entry) (ignoreDot : Bool) : Registry × List Err :=
  ((scanTree walk ignoreDot).h, (scanTree walk ignoreDot).errors)

/-- The callback passed to `filepath.Walk` in `Count`. -/
def countStep (ignoreDot : Bool) (c : Nat) (e : Entry) : Nat :=
  if e.walkErr.isNone && Valid e then
    if ignoreDot && dotName e then c else c + 1
  else
    c

/-- Go `Count(dir, ignoreDot)`. -/
def Count (walk : List Entry) (ignoreDot : Bool) : Nat :=
  walk.foldl (countStep ignoreDot) 0

/-! ## The run loop of `cmd/root.go` -/

/-- Go `strconv.Atoi(s)` on a platform with 64-bit `int`: an optional sign followed by
one or more decimal digits. A syntax error yields `0`, a value out of range yields
the nearest bound; both come with an error. -/
def Atoi (s : String) : Int × Option Err :=
  let cs := s.data
  let neg : Bool := decide (cs.head? = some '-')
  let ds := if cs.head? = some '-' ∨ cs.head? = some '+' then cs.tail else cs
  if ds = [] ∨ ds.any (fun c => !(decide (48 ≤ c.toNat) && decide (c.toNat ≤ 57))) then
    (0, some (Err.num s "invalid syntax"))
  else
    let n : Nat := ds.foldl (fun a c => a * 10 + (c.toNat - 48)) 0
    if neg then
      if n > 9223372036854775808 then
        (-9223372036854775808, some (Err.num s "value out of range"))
      else (-(n : Int), none)
    else
      if n ≥ 9223372036854775808 then
        (9223372036854775807, some (Err.num s "value out of range"))
      else ((n : Int), none)

/-- What the run loop writes to standard output: a text, or an error value
printed with `fmt.Println(err)`. -/
inductive Out where
  | text (s : String)
  | err (e : Err)
  deriving DecidableEq

/-- State of the run loop: the filesystem, the output written so far, the number
of lines read with `input.ReadLine()`, and the slice `errors`. -/
structure Session where
  fs : FS
  out : List Out
  read : Nat
  errors : List Err
  deriving DecidableEq

/-- The body of the loop `for _, r := range data` in `RootCmd.Run`, for one group.
`yes` is `common.Yes.MatchString`, and `answers n` is the line that the call
number `n` of `input.ReadLine()` returns. The flag of the result tells that the
body executed `return`. -/
def runGroup (findOnly : Bool) (yes : String → Bool) (answers : Nat → String)
    (r : File) (s : Session) : Session × Bool :=
  if r.Paths.length > 1 then
    let s1 : Session :=
      { s with out := s.out ++ [Out.text ("\nDupes found for " ++ r.Paths.headD "" ++ "\n")]
                 ++ r.Index.map (fun p => Out.text ("\t " ++ p ++ "\n")) }
    if findOnly then
      (s1, false)
    else
      let s2 : Session :=
        { s1 with out := s1.out ++ [Out.text "Remove dupes? [Y/n or index of file to keep]: "],
                  read := s1.read + 1 }
      let ans := answers s.read
      if (Atoi ans).2.isSome && !yes ans && decide (ans ≠ "") then
        ({ s2 with out := s2.out ++ [Out.text "No action taken. Continuing.\n"] }, false)
      else
        match r.Keep (Atoi ans).1 s2.fs with
        | (fs1, some err) =>
          ({ s2 with fs := fs1, errors := s2.errors ++ [], out := s2.out ++ [Out.err err] }, true)
        | (fs1, none) => ({ s2 with fs := fs1 }, false)
  else
    (s, false)

/-- The loop `for _, r := range data`, visiting the groups in the order of the
list `data`; it stops at the first group whose body executes `return`. -/
def runGroups (findOnly : Bool) (yes : String → Bool) (answers : Nat → String) :
    List (String × File) → Session → Session × Bool
  | [], s => (s, false)
  | (_, r) :: rest, s =>
    match runGroup findOnly yes answers r s with
    | (s1, true) => (s1, true)
    | (s1, false) => runGroups findOnly yes answers rest s1

/-- The text that opens the final summary. -/
def summaryHeader : Out :=
  Out.text "\nThe following errors occurred during the run:\n"

/-- Lines 65 to 97 of `RootCmd.Run`: the loop over `data`, visited in the order of
the list (Go leaves the order of a map range unspecified), then the summary of
`errors`, which a `return` inside the loop skips. -/
def RunOn (findOnly : Bool) (yes : String → Bool) (answers : Nat → String)
    (data : List (String × File)) (errors : List Err) (fs : FS) : Session :=
  match runGroups findOnly yes answers data { fs := fs, out := [], read := 0, errors := errors } with
  | (s, true) => s
  | (s, false) =>
    if s.errors.length > 0 then
      { s with out := s.out ++ [summaryHeader] ++ s.errors.map Out.err }
    else s

/-- Go `RootCmd.Run` from line 63 on, for the walk of `dir` and the filesystem `fs`,
visiting the groups in the order in which the walk first met their digests. -/
def Run (walk : List Entry) (ignoreDot findOnly : Bool) (yes : String → Bool)
    (answers : Nat → String) (fs : FS) : Session :=
  RunOn findOnly yes answers (ReadTree walk ignoreDot).1 (ReadTree walk ignoreDot).2 fs

/-- An affirmative pattern for the examples: `y`, `Y`, `yes`. -/
def sampleYes (s : String) : Bool :=
  decide (s = "y" ∨ s = "Y" ∨ s = "yes")

/-! ## Vocabulary of the statements -/

/-- The paths of `ps` whose position, counted from `i`, is not `idx`, in order:
the arguments `Keep` passes to `os.Remove` when no removal fails. -/
def others (idx : Int) : Nat → List String → List String
  | _, [] => []
  | i, p :: ps => if (i : Int) ≠ idx then p :: others idx (i + 1) ps else others idx (i + 1) ps

/-- The digest under which the walk of `ReadTree` inserts the entry: the entry
passes the filter and `Hash` succeeds on it. -/
def digestOf (ignoreDot : Bool) (e : Entry) : Option String :=
  if eligible ignoreDot e then
    match e.hash with
    | .ok d => some d
    | .error _ => none
  else none

/-- The error `Hash` returns for the entry, when it passes the filter and `Hash`
fails on it. -/
def hashErrOf (ignoreDot : Bool) (e : Entry) : Option Err :=
  if eligible ignoreDot e then
    match e.hash with
    | .ok _ => none
    | .error err => some err
  else none

/-- The paths of the walk, in walk order, of the entries inserted under digest `d`. -/
def pathsOf (ignoreDot : Bool) (d : String) (walk : List Entry) : List String :=
  (walk.filter (fun e => decide (digestOf ignoreDot e = some d))).map Entry.path

/-- The paths of the walk, in walk order, of all entries inserted under a digest. -/
def hashedPaths (ignoreDot : Bool) (walk : List Entry) : List String :=
  (walk.filter (fun e => (digestOf ignoreDot e).isSome)).map Entry.path

/-- Sum of `w` over the groups stored in the registry. -/
def Registry.sum (w : File → Nat) (h : Registry) : Nat :=
  (h.map (fun kg => w kg.2)).sum

/-- The registry invariant: every stored group has at least one path and its
`Hash` is the key it is stored under. -/
def Registry.Inv (h : Registry) : Prop :=
  ∀ k g, (k, g) ∈ h → g.Paths ≠ [] ∧ g.Hash = k

/-- A regular, non-empty, readable file met by the walk, with the result of
hashing it. -/
def regular (path name : String) (hash : Except Err String) : Entry :=
  { path := path, name := name, walkErr := none, symlink := .ok false,
    stat := .ok (false, 5), hash := hash }

/-- A walk over `a.txt` and `b.txt` (same content), an unreadable `x.bin`, a
symbolic link `l.txt`, and `c.txt` (other content). -/
def sampleWalk : List Entry :=
  [ regular "a.txt" "a.txt" (.ok "H"),
    regular "x.bin" "x.bin" (.error (Err.path "open" "x.bin" "permission denied")),
    { regular "l.txt" "l.txt" (.ok "H") with symlink := .ok true },
    regular "b.txt" "b.txt" (.ok "H"),
    regular "c.txt" "c.txt" (.ok "W") ]

/-- The session once the loop body has listed the group `r`, printed the prompt
and read one line. -/
def afterPrompt (r : File) (s : Session) : Session :=
  { s with out := s.out ++ [Out.text ("\nDupes found for " ++ r.Paths.headD "" ++ "\n")]
               ++ r.Index.map (fun p => Out.text ("\t " ++ p ++ "\n"))
               ++ [Out.text "Remove dupes? [Y/n or index of file to keep]: "],
           read := s.read + 1 }

/-- The decision resolves as keep index `idx`: the loop body calls `r.Keep(idx)` on
the current filesystem; when `Keep` returns an error the body prints it and
executes `return`. -/
def keepOutcome (r : File) (idx : Int) (s : Session) : Session × Bool :=
  match (r.Keep idx s.fs).2 with
  | some err =>
    ({ afterPrompt r s with fs := (r.Keep idx s.fs).1,
                            out := (afterPrompt r s).out ++ [Out.err err] }, true)
  | none => ({ afterPrompt r s with fs := (r.Keep idx s.fs).1 }, false)

/-- The decision is a decline: the loop body prints that no action is taken and
goes on to the next group with the filesystem as it was. -/
def declineOutcome (r : File) (s : Session) : Session × Bool :=
  ({ afterPrompt r s with
      out := (afterPrompt r s).out ++ [Out.text "No action taken. Continuing.\n"] }, false)

/-- The number written by a string of decimal digits. -/
def digitsValue (ds : List Char) : Nat :=
  ds.foldl (fun a c => a * 10 + (c.toNat - 48)) 0

/-- The characters are all decimal digits, and there is at least one. -/
def isDigits (ds : List Char) : Prop :=
  ds ≠ [] ∧ ∀ c ∈ ds, 48 ≤ c.toNat ∧ c.toNat ≤ 57

/-- Two duplicate groups, for the examples of the run loop. -/
def groupH : File := { Hash := "H", Paths := ["a", "b"] }

/-- See `groupH`. -/
def groupW : File := { Hash := "W", Paths := ["c", "d"] }

/-- A filesystem holding the paths of `groupH` and `groupW`, in which the removal
of `b` and of `d` is refused. -/
def refusingFS : FS :=
  { present := ["a", "b", "c", "d"], locked := ["b", "d"], log := [] }

/-- A session at the start of the loop, over a filesystem holding `a`, `b`, `c`. -/
def session0 : Session :=
  { fs := { present := ["a", "b", "c"], locked := [], log := [] },
    out := [], read := 0, errors := [] }

/-! ## Lemmas on `Keep` -/

theorem mem_others (idx : Int) (ps : List String) (i : Nat) (p : String) :
    p ∈ others idx i ps ↔ ∃ n, ps[n]? = some p ∧ ((i + n : Nat) : Int) ≠ idx := by
  induction ps generalizing i with
  | nil => simp [others]
  | cons a t ih =>
    unfold others
    constructor
    · intro h
      split at h
      · rcases List.mem_cons.1 h with h | h
        · exact ⟨0, by simp [h], by simpa⟩
        · obtain ⟨n, hn, hne⟩ := (ih (i + 1)).1 h
          exact ⟨n + 1, by simpa using hn, by (have e : i + 1 + n = i + (n + 1) := by omega); rwa [e] at hne⟩
      · obtain ⟨n, hn, hne⟩ := (ih (i + 1)).1 h
        exact ⟨n + 1, by simpa using hn, by (have e : i + 1 + n = i + (n + 1) := by omega); rwa [e] at hne⟩
    · rintro ⟨n, hn, hne⟩
      have key : ∀ m, t[m]? = some p → ((i + (m + 1) : Nat) : Int) ≠ idx → p ∈ others idx (i + 1) t := by
        intro m hm hne
        exact (ih (i + 1)).2 ⟨m, hm, by (have e : i + 1 + m = i + (m + 1) := by omega); rwa [e]⟩
      cases n with
      | zero =>
        have hp : a = p := by simpa using hn
        have hi : (i : Int) ≠ idx := by simpa using hne
        simp [hi, hp]
      | succ m =>
        have hm : t[m]? = some p := by simpa using hn
        split
        · exact List.mem_cons_of_mem _ (key m hm hne)
        · exact key m hm hne

theorem others_append (idx : Int) (ps qs : List String) (i : Nat) :
    others idx i (ps ++ qs) = others idx i ps ++ others idx (i + ps.length) qs := by
  induction ps generalizing i with
  | nil => simp [others]
  | cons a t ih =>
    have e : i + 1 + t.length = i + (t.length + 1) := by omega
    simp only [List.cons_append, others, List.length_cons]
    split <;> simp [ih, e]

theorem others_sublist (idx : Int) (ps : List String) (i : Nat) :
    (others idx i ps).Sublist ps := by
  induction ps generalizing i with
  | nil => simp [others]
  | cons a t ih =>
    unfold others
    split
    · exact (ih (i + 1)).cons₂ a
    · exact (ih (i + 1)).cons a

/-- When every removal succeeds, the loop of `Keep` removes exactly the paths at
the positions other than `idx`, in order. -/
theorem keepLoop_ok (idx : Int) (ps : List String) (i : Nat) (fs : FS)
    (h : ∀ n p, ps[n]? = some p → ((i + n : Nat) : Int) ≠ idx →
      p ∈ fs.present ∧ p ∉ fs.locked ∧
        ∀ m q, m < n → ps[m]? = some q → ((i + m : Nat) : Int) ≠ idx → q ≠ p) :
    keepLoop idx i ps fs =
      ({ present := fs.present.filter (fun x => decide (x ∉ others idx i ps)),
         locked := fs.locked,
         log := fs.log ++ others idx i ps }, none) := by
  induction ps generalizing i fs with
  | nil => simp [keepLoop, others]
  | cons a t ih =>
    unfold keepLoop others
    by_cases hi : (i : Int) = idx
    · simp only [hi, ne_eq, not_true_eq_false, if_false]
      apply ih
      intro n p hn hne
      have e : i + 1 + n = i + (n + 1) := by omega
      rw [e] at hne
      obtain ⟨h1, h2, h3⟩ := h (n + 1) p (by simpa using hn) hne
      refine ⟨h1, h2, ?_⟩
      intro m q hm hq hmne
      have e2 : i + 1 + m = i + (m + 1) := by omega
      rw [e2] at hmne
      exact h3 (m + 1) q (by omega) (by simpa using hq) hmne
    · obtain ⟨ha1, ha2, -⟩ := h 0 a (by simp) (by simpa using hi)
      have hrem : fs.Remove a =
          ({ present := fs.present.filter (fun q => q ≠ a), locked := fs.locked,
             log := fs.log ++ [a] }, none) := by
        simp [FS.Remove, ha1, ha2]
      simp only [ne_eq, hi, not_false_eq_true, if_true, hrem]
      rw [ih]
      · simp only [List.filter_filter, List.append_assoc, List.singleton_append,
          Prod.mk.injEq, FS.mk.injEq, and_true, true_and]
        apply List.filter_congr
        intro x _
        by_cases hx : x = a <;> simp [hx]
      · intro n p hn hne
        have e : i + 1 + n = i + (n + 1) := by omega
        rw [e] at hne
        obtain ⟨h1, h2, h3⟩ := h (n + 1) p (by simpa using hn) hne
        have hpa : a ≠ p := h3 0 a (by omega) (by simp) (by simpa using hi)
        refine ⟨?_, h2, ?_⟩
        · simp only [List.mem_filter, h1, true_and]
          simpa using fun hh => hpa hh.symm
        · intro m q hm hq hmne
          have e2 : i + 1 + m = i + (m + 1) := by omega
          rw [e2] at hmne
          exact h3 (m + 1) q (by omega) (by simpa using hq) hmne

/-- When the removal at relative position `n` is the first one to fail, the loop
of `Keep` stops there: the earlier positions other than `idx` are removed, the
failing call is the last one recorded, and its error is returned. -/
theorem keepLoop_fail (idx : Int) (ps : List String) (i : Nat) (fs : FS) (n : Nat) (q : String)
    (hq : ps[n]? = some q) (hne : ((i + n : Nat) : Int) ≠ idx)
    (hpre : ∀ m p, m < n → ps[m]? = some p → ((i + m : Nat) : Int) ≠ idx →
      p ∈ fs.present ∧ p ∉ fs.locked ∧
        ∀ k r, k < m → ps[k]? = some r → ((i + k : Nat) : Int) ≠ idx → r ≠ p)
    (hfail : q ∉ fs.present ∨ q ∈ fs.locked ∨
      ∃ m, m < n ∧ ps[m]? = some q ∧ ((i + m : Nat) : Int) ≠ idx) :
    ∃ reason, keepLoop idx i ps fs =
      ({ present := fs.present.filter (fun x => decide (x ∉ others idx i (ps.take n))),
         locked := fs.locked,
         log := fs.log ++ (others idx i (ps.take n) ++ [q]) },
       some (Err.path "remove" q reason)) := by
  induction ps generalizing i fs n with
  | nil => simp at hq
  | cons a t ih =>
    cases n with
    | zero =>
      have haq : a = q := by simpa using hq
      subst haq
      have hi : (i : Int) ≠ idx := by simpa using hne
      have hnot : a ∉ fs.present ∨ a ∈ fs.locked := by
        rcases hfail with h | h | ⟨m, hm, -⟩
        · exact Or.inl h
        · exact Or.inr h
        · omega
      unfold keepLoop
      by_cases hp : a ∈ fs.present
      · have hl : a ∈ fs.locked := by
          rcases hnot with h | h
          · exact absurd hp h
          · exact h
        exact ⟨"operation not permitted", by simp [FS.Remove, hp, hl, hi, others]⟩
      · exact ⟨"no such file or directory", by simp [FS.Remove, hp, hi, others]⟩
    | succ n =>
      have hq1 : t[n]? = some q := by simpa using hq
      have e : i + 1 + n = i + (n + 1) := by omega
      have hne1 : ((i + 1 + n : Nat) : Int) ≠ idx := by rw [e]; exact hne
      unfold keepLoop
      by_cases hi : (i : Int) = idx
      · have hpre1 : ∀ m p, m < n → t[m]? = some p → ((i + 1 + m : Nat) : Int) ≠ idx →
            p ∈ fs.present ∧ p ∉ fs.locked ∧
              ∀ k r, k < m → t[k]? = some r → ((i + 1 + k : Nat) : Int) ≠ idx → r ≠ p := by
          intro m p hm hp hmne
          have e1 : i + 1 + m = i + (m + 1) := by omega
          rw [e1] at hmne
          obtain ⟨h1, h2, h3⟩ := hpre (m + 1) p (by omega) (by simpa using hp) hmne
          refine ⟨h1, h2, ?_⟩
          intro k r hk hr hkne
          have e2 : i + 1 + k = i + (k + 1) := by omega
          rw [e2] at hkne
          exact h3 (k + 1) r (by omega) (by simpa using hr) hkne
        have hfail1 : q ∉ fs.present ∨ q ∈ fs.locked ∨
            ∃ m, m < n ∧ t[m]? = some q ∧ ((i + 1 + m : Nat) : Int) ≠ idx := by
          rcases hfail with h | h | ⟨m, hm, hmq, hmne⟩
          · exact Or.inl h
          · exact Or.inr (Or.inl h)
          · cases m with
            | zero => exact absurd hi (by simpa using hmne)
            | succ m =>
              refine Or.inr (Or.inr ⟨m, by omega, by simpa using hmq, ?_⟩)
              have e1 : i + 1 + m = i + (m + 1) := by omega
              rw [e1]; exact hmne
        obtain ⟨reason, hr⟩ := ih (i + 1) fs n hq1 hne1 hpre1 hfail1
        exact ⟨reason, by simp [hi, hr, others]⟩
      · obtain ⟨ha1, ha2, -⟩ := hpre 0 a (by omega) (by simp) (by simpa using hi)
        have hrem : fs.Remove a =
            ({ present := fs.present.filter (fun q => q ≠ a), locked := fs.locked,
               log := fs.log ++ [a] }, none) := by
          simp [FS.Remove, ha1, ha2]
        have hpre1 : ∀ m p, m < n → t[m]? = some p → ((i + 1 + m : Nat) : Int) ≠ idx →
            p ∈ fs.present.filter (fun q => q ≠ a) ∧ p ∉ fs.locked ∧
              ∀ k r, k < m → t[k]? = some r → ((i + 1 + k : Nat) : Int) ≠ idx → r ≠ p := by
          intro m p hm hp hmne
          have e1 : i + 1 + m = i + (m + 1) := by omega
          rw [e1] at hmne
          obtain ⟨h1, h2, h3⟩ := hpre (m + 1) p (by omega) (by simpa using hp) hmne
          have hpa : a ≠ p := h3 0 a (by omega) (by simp) (by simpa using hi)
          refine ⟨?_, h2, ?_⟩
          · simp only [List.mem_filter, h1, true_and]
            simpa using fun hh => hpa hh.symm
          · intro k r hk hr hkne
            have e2 : i + 1 + k = i + (k + 1) := by omega
            rw [e2] at hkne
            exact h3 (k + 1) r (by omega) (by simpa using hr) hkne
        have hfail1 : q ∉ fs.present.filter (fun q => q ≠ a) ∨ q ∈ fs.locked ∨
            ∃ m, m < n ∧ t[m]? = some q ∧ ((i + 1 + m : Nat) : Int) ≠ idx := by
          rcases hfail with h | h | ⟨m, hm, hmq, hmne⟩
          · exact Or.inl (fun hh => h (List.mem_filter.1 hh).1)
          · exact Or.inr (Or.inl h)
          · cases m with
            | zero =>
              have haq : a = q := by simpa using hmq
              exact Or.inl (by simp [haq])
            | succ m =>
              refine Or.inr (Or.inr ⟨m, by omega, by simpa using hmq, ?_⟩)
              have e1 : i + 1 + m = i + (m + 1) := by omega
              rw [e1]; exact hmne
        obtain ⟨reason, hr⟩ := ih (i + 1)
          { present := fs.present.filter (fun q => q ≠ a), locked := fs.locked,
            log := fs.log ++ [a] } n hq1 hne1 hpre1 hfail1
        refine ⟨reason, ?_⟩
        simp only [ne_eq, hi, not_false_eq_true, if_true, hrem, hr, List.take_succ_cons, others]
        simp only [List.filter_filter, List.append_assoc, List.singleton_append,
          List.cons_append, List.nil_append, Prod.mk.injEq, FS.mk.injEq, and_true, true_and]
        apply List.filter_congr
        intro x _
        by_cases hx : x = a <;> simp [hx]

theorem others_eq_eraseIdx (K : Nat) (ps : List String) (i : Nat) :
    others (K : Int) i ps = if i ≤ K then ps.eraseIdx (K - i) else ps := by
  induction ps generalizing i with
  | nil => simp [others]
  | cons a t ih =>
    unfold others
    by_cases hi : i = K
    · subst hi
      simp [ih]
    · have hi2 : ((i : Nat) : Int) ≠ (K : Int) := by omega
      simp only [ne_eq, hi2, not_false_eq_true, if_true, ih]
      by_cases hlt : i < K
      · have h1 : i + 1 ≤ K := hlt
        have h2 : i ≤ K := by omega
        obtain ⟨d, hd⟩ : ∃ d, K - i = d + 1 := ⟨K - i - 1, by omega⟩
        have h3 : K - (i + 1) = d := by omega
        simp [h1, h2, hd, h3]
      · have h1 : ¬ i + 1 ≤ K := by omega
        have h2 : ¬ i ≤ K := by omega
        simp [h1, h2]

theorem others_zero (K : Nat) (ps : List String) :
    others (K : Int) 0 ps = ps.eraseIdx K := by
  simp [others_eq_eraseIdx]

theorem mem_eraseIdx_iff_pos (K : Nat) (ps : List String) (x : String) :
    x ∈ ps.eraseIdx K ↔ ∃ i, i ≠ K ∧ ps[i]? = some x := by
  rw [← others_zero, mem_others]
  constructor
  · rintro ⟨n, hn, hne⟩
    exact ⟨n, by (intro h; apply hne; simp [h]), hn⟩
  · rintro ⟨n, hne, hn⟩
    exact ⟨n, hn, by (simp only [Nat.zero_add]; omega)⟩

/-! ## Claims on `Keep` -/

/-- C1. For a group `f` whose paths are pairwise distinct and all exist, and an
index `K` with `0 ≤ K < len(f.Paths)`, when no removal is refused `Keep(K)`
returns `nil` and the filesystem afterwards is the initial one minus exactly the
paths of the group at the positions other than `K`: the path at position `K`
still exists, every other path of the group is gone, and the paths outside the
group are as before. -/
theorem Keep_valid_index_removes_exactly_the_others (f : File) (K : Nat) (fs : FS)
    (hnd : f.Paths.Nodup) (hex : ∀ p ∈ f.Paths, p ∈ fs.present)
    (hK : K < f.Paths.length)
    (hok : ∀ i p, f.Paths[i]? = some p → i ≠ K → p ∉ fs.locked) :
    (f.Keep K fs).2 = none ∧
    (f.Keep K fs).1.present
      = fs.present.filter (fun x => decide (x ∉ f.Paths.eraseIdx K)) ∧
    (∀ x, x ∈ (f.Keep K fs).1.present ↔
      x ∈ fs.present ∧ ¬ ∃ i, i ≠ K ∧ f.Paths[i]? = some x) ∧
    (∃ p, f.Paths[K]? = some p ∧ p ∈ (f.Keep K fs).1.present) ∧
    (∀ i p, f.Paths[i]? = some p → i ≠ K → p ∉ (f.Keep K fs).1.present) ∧
    (∀ x, x ∉ f.Paths → (x ∈ (f.Keep K fs).1.present ↔ x ∈ fs.present)) := by
  have hgt : ¬ ((K : Int) > (f.Paths.length : Int)) := by omega
  have hrun := keepLoop_ok (K : Int) f.Paths 0 fs (by
    intro n p hn hne
    have hnK : n ≠ K := by
      intro h; apply hne; simp [h]
    refine ⟨hex p (List.getElem?_mem hn), hok n p hn hnK, ?_⟩
    intro m q hm hq _ hqp
    have := (List.nodup_iff_getElem?_ne_getElem?.1 hnd) m n hm
      (by
        have := (List.getElem?_eq_some_iff.1 hn).1
        exact this)
    exact this (by rw [hq, hn, hqp]))
  have hkeep : f.Keep K fs =
      ({ present := fs.present.filter (fun x => decide (x ∉ f.Paths.eraseIdx K)),
         locked := fs.locked, log := fs.log ++ f.Paths.eraseIdx K }, none) := by
    unfold File.Keep
    rw [if_neg hgt, hrun, others_zero]
  have hmem : ∀ x, x ∈ (f.Keep K fs).1.present ↔
      x ∈ fs.present ∧ ¬ ∃ i, i ≠ K ∧ f.Paths[i]? = some x := by
    intro x
    rw [hkeep]
    simp only [List.mem_filter, decide_eq_true_eq, mem_eraseIdx_iff_pos]
  refine ⟨by rw [hkeep], by rw [hkeep], hmem, ?_, ?_, ?_⟩
  · refine ⟨f.Paths[K], List.getElem?_eq_getElem hK, ?_⟩
    rw [hmem]
    refine ⟨hex _ (List.getElem_mem _), ?_⟩
    rintro ⟨i, hi, hiK⟩
    have := (List.nodup_iff_getElem?_ne_getElem?.1 hnd)
    rcases Nat.lt_or_gt_of_ne hi with hlt | hlt
    · exact this i K hlt hK (by rw [hiK, List.getElem?_eq_getElem hK])
    · exact this K i hlt (List.getElem?_eq_some_iff.1 hiK).1
        (by rw [hiK, List.getElem?_eq_getElem hK])
  · intro i p hp hi hin
    exact ((hmem p).1 hin).2 ⟨i, hi, hp⟩
  · intro x hx
    rw [hmem]
    constructor
    · exact fun h => h.1
    · intro h
      refine ⟨h, ?_⟩
      rintro ⟨i, -, hi⟩
      exact hx (List.getElem?_mem hi)

/-- Witness of C1: the group `a, b, c` with `K = 1` in a filesystem that also holds
`d`: `Keep` returns `nil` and leaves exactly `b` and `d`. -/
theorem Keep_valid_index_removes_exactly_the_others_witness :
    (File.Keep { Hash := "h", Paths := ["a", "b", "c"] } ((1 : Nat) : Int)
        { present := ["a", "b", "c", "d"], locked := [], log := [] }).2 = none ∧
    (File.Keep { Hash := "h", Paths := ["a", "b", "c"] } ((1 : Nat) : Int)
        { present := ["a", "b", "c", "d"], locked := [], log := [] }).1.present = ["b", "d"] :=
  have h := Keep_valid_index_removes_exactly_the_others
    { Hash := "h", Paths := ["a", "b", "c"] } 1
    { present := ["a", "b", "c", "d"], locked := [], log := [] }
    (by decide) (by decide) (by decide) (by intro i p _ _; simp)
  ⟨h.1, h.2.1.trans (by decide)⟩

/-- C2, evaluated on the code: for the group `a, b` the index `2 = len(f.Paths)`
and the index `-1` both pass the check `idx > len(f.Paths)`; `Keep` then returns
`nil` and removes every path of the group. Only an index above the length is
rejected without a removal. -/
theorem Keep_index_len_or_negative_removes_all :
    File.Keep { Hash := "h", Paths := ["a", "b"] } 2
        { present := ["a", "b", "c"], locked := [], log := [] }
      = ({ present := ["c"], locked := [], log := ["a", "b"] }, none) ∧
    File.Keep { Hash := "h", Paths := ["a", "b"] } (-1)
        { present := ["a", "b", "c"], locked := [], log := [] }
      = ({ present := ["c"], locked := [], log := ["a", "b"] }, none) ∧
    File.Keep { Hash := "h", Paths := ["a", "b"] } 3
        { present := ["a", "b", "c"], locked := [], log := [] }
      = ({ present := ["a", "b", "c"], locked := [], log := [] },
          some (Err.invalidIndex 3)) := by
  decide

/-- C7. For a group `f` and a valid index `K`, let position `j ≠ K` hold the first
failing removal: every earlier position other than `K` holds a path that exists,
is not refused and was not already removed at a still earlier position, while the
path `q` at `j` is missing, refused, or was already removed. Then `Keep(K)`
returns the error of the removal of `q`; the removals attempted are exactly the
positions `0..j` other than `K`, in the order of `f.Paths`, so no removal is
attempted past `j`; every path at a position before `j` other than `K` is gone;
and the filesystem loses nothing else, so with pairwise distinct paths every
path at a position after `j` is as it was. -/
theorem Keep_stops_at_first_failing_removal (f : File) (K j : Nat) (fs : FS) (q : String)
    (hK : K < f.Paths.length) (hj : f.Paths[j]? = some q) (hjK : j ≠ K)
    (hsucc : ∀ i p, i < j → f.Paths[i]? = some p → i ≠ K →
      p ∈ fs.present ∧ p ∉ fs.locked ∧
        ∀ k r, k < i → f.Paths[k]? = some r → k ≠ K → r ≠ p)
    (hfail : q ∉ fs.present ∨ q ∈ fs.locked ∨
      ∃ i, i < j ∧ i ≠ K ∧ f.Paths[i]? = some q) :
    (∃ reason, (f.Keep K fs).2 = some (Err.path "remove" q reason)) ∧
    (f.Keep K fs).1.log = fs.log ++ (f.Paths.take (j + 1)).eraseIdx K ∧
    (∀ x, x ∈ (f.Keep K fs).1.present ↔
      x ∈ fs.present ∧ ¬ ∃ i, i < j ∧ i ≠ K ∧ f.Paths[i]? = some x) ∧
    (∀ i p, i < j → i ≠ K → f.Paths[i]? = some p → p ∉ (f.Keep K fs).1.present) ∧
    (f.Paths.Nodup → ∀ i p, j < i → f.Paths[i]? = some p →
      (p ∈ (f.Keep K fs).1.present ↔ p ∈ fs.present)) := by
  have hgt : ¬ ((K : Int) > (f.Paths.length : Int)) := by omega
  have cv : ∀ m : Nat, ((0 + m : Nat) : Int) ≠ (K : Int) ↔ m ≠ K := by
    intro m
    simp only [Nat.zero_add]
    omega
  obtain ⟨reason, hrun⟩ := keepLoop_fail (K : Int) f.Paths 0 fs j q hj ((cv j).2 hjK)
    (by
      intro m p hm hp hne
      obtain ⟨h1, h2, h3⟩ := hsucc m p hm hp ((cv m).1 hne)
      exact ⟨h1, h2, fun k r hk hr hkne => h3 k r hk hr ((cv k).1 hkne)⟩)
    (by
      rcases hfail with h | h | ⟨i, hi, hiK, hiq⟩
      · exact Or.inl h
      · exact Or.inr (Or.inl h)
      · exact Or.inr (Or.inr ⟨i, hi, hiq, (cv i).2 hiK⟩))
  have hjlen : j < f.Paths.length := (List.getElem?_eq_some_iff.1 hj).1
  have htake : (f.Paths.take (j + 1)).eraseIdx K = (f.Paths.take j).eraseIdx K ++ [q] := by
    have e1 : f.Paths.take (j + 1) = f.Paths.take j ++ [q] := by
      rw [List.take_succ, hj]; rfl
    rw [← others_zero, ← others_zero, e1, others_append]
    simp only [Nat.zero_add, List.length_take, Nat.min_eq_left (Nat.le_of_lt hjlen), others]
    have : ((j : Nat) : Int) ≠ (K : Int) := by omega
    simp [this]
  have hkeep : f.Keep K fs =
      ({ present := fs.present.filter (fun x => decide (x ∉ (f.Paths.take j).eraseIdx K)),
         locked := fs.locked, log := fs.log ++ ((f.Paths.take j).eraseIdx K ++ [q]) },
       some (Err.path "remove" q reason)) := by
    unfold File.Keep
    rw [if_neg hgt, hrun, others_zero]
  have hpos : ∀ x, (∃ i, i ≠ K ∧ (f.Paths.take j)[i]? = some x) ↔
      ∃ i, i < j ∧ i ≠ K ∧ f.Paths[i]? = some x := by
    intro x
    constructor
    · rintro ⟨i, hi, hx⟩
      have hij : i < j := by
        have := (List.getElem?_eq_some_iff.1 hx).1
        simp only [List.length_take] at this
        omega
      rw [List.getElem?_take_of_lt hij] at hx
      exact ⟨i, hij, hi, hx⟩
    · rintro ⟨i, hij, hi, hx⟩
      exact ⟨i, hi, by rw [List.getElem?_take_of_lt hij]; exact hx⟩
  have hmem : ∀ x, x ∈ (f.Keep K fs).1.present ↔
      x ∈ fs.present ∧ ¬ ∃ i, i < j ∧ i ≠ K ∧ f.Paths[i]? = some x := by
    intro x
    rw [hkeep]
    simp only [List.mem_filter, decide_eq_true_eq, mem_eraseIdx_iff_pos, hpos]
  refine ⟨⟨reason, by rw [hkeep]⟩, by rw [hkeep, htake], hmem, ?_, ?_⟩
  · intro i p hi hiK hp hin
    exact ((hmem p).1 hin).2 ⟨i, hi, hiK, hp⟩
  · intro hnd i p hji hp
    rw [hmem]
    constructor
    · exact fun h => h.1
    · intro h
      refine ⟨h, ?_⟩
      rintro ⟨k, hk, -, hkp⟩
      exact (List.nodup_iff_getElem?_ne_getElem?.1 hnd) k i (by omega)
        (List.getElem?_eq_some_iff.1 hp).1 (by rw [hkp, hp])

/-- Witness of C7: the group `a, b, c, d` with `K = 1`, where the removal of `c`
(position 2) is refused: `a` is removed, `c` and `d` stay, and the calls recorded
are those for `a` and `c`. -/
theorem Keep_stops_at_first_failing_removal_witness :
    (∃ reason, (File.Keep { Hash := "h", Paths := ["a", "b", "c", "d"] } ((1 : Nat) : Int)
        { present := ["a", "b", "c", "d"], locked := ["c"], log := [] }).2
          = some (Err.path "remove" "c" reason)) ∧
    (File.Keep { Hash := "h", Paths := ["a", "b", "c", "d"] } ((1 : Nat) : Int)
        { present := ["a", "b", "c", "d"], locked := ["c"], log := [] }).1.log = ["a", "c"] ∧
    (File.Keep { Hash := "h", Paths := ["a", "b", "c", "d"] } ((1 : Nat) : Int)
        { present := ["a", "b", "c", "d"], locked := ["c"], log := [] }).1.present
          = ["b", "c", "d"] :=
  have h := Keep_stops_at_first_failing_removal
    { Hash := "h", Paths := ["a", "b", "c", "d"] } 1 2
    { present := ["a", "b", "c", "d"], locked := ["c"], log := [] } "c"
    (by decide) (by decide) (by decide)
    (by
      intro i p hi hp hne
      have h0 : i = 0 := by omega
      subst h0
      have hp2 : "a" = p := by simpa using hp
      subst hp2
      exact ⟨by decide, by decide, fun k r hk => absurd hk (Nat.not_lt_zero k)⟩)
    (Or.inr (Or.inl (by decide)))
  ⟨h.1, h.2.1.trans (by decide), by decide⟩

/-! ## Lemmas on the registry -/

theorem Registry.get_set (h : Registry) (k : String) (f : File) (k1 : String) :
    (h.set k f).get k1 = if k = k1 then some f else h.get k1 := by
  induction h with
  | nil => simp [Registry.set, Registry.get]
  | cons a t ih =>
    obtain ⟨ka, fa⟩ := a
    unfold Registry.set
    by_cases hk : ka = k
    · subst hk
      by_cases h1 : ka = k1 <;> simp [Registry.get, h1]
    · simp only [hk, if_false, Registry.get, ih]
      by_cases h1 : ka = k1
      · have : ¬ k = k1 := fun h2 => hk (h1.trans h2.symm)
        simp [h1, this]
      · simp [h1]

theorem Registry.get_none_iff (h : Registry) (k : String) :
    h.get k = none ↔ k ∉ h.map Prod.fst := by
  induction h with
  | nil => simp [Registry.get]
  | cons a t ih =>
    obtain ⟨ka, fa⟩ := a
    by_cases hk : ka = k
    · simp [Registry.get, hk]
    · have hk2 : ¬ k = ka := fun h => hk h.symm
      simp [Registry.get, hk, hk2, ih]

theorem Registry.keys_set (h : Registry) (k : String) (f : File) :
    (h.set k f).map Prod.fst =
      if k ∈ h.map Prod.fst then h.map Prod.fst else h.map Prod.fst ++ [k] := by
  induction h with
  | nil => simp [Registry.set]
  | cons a t ih =>
    obtain ⟨ka, fa⟩ := a
    unfold Registry.set
    by_cases hk : ka = k
    · simp [hk]
    · have hk2 : ¬ k = ka := fun h => hk h.symm
      simp only [hk, if_false, List.map_cons, ih, List.mem_cons, hk2, false_or]
      split <;> simp

theorem Registry.nodup_keys_set (h : Registry) (k : String) (f : File)
    (hn : (h.map Prod.fst).Nodup) : ((h.set k f).map Prod.fst).Nodup := by
  rw [Registry.keys_set]
  split
  · exact hn
  · rename_i hk
    exact List.Nodup.append hn (List.nodup_singleton k) (by simpa using hk)

theorem Registry.mem_iff_get (h : Registry) (hn : (h.map Prod.fst).Nodup) (k : String)
    (g : File) : (k, g) ∈ h ↔ h.get k = some g := by
  induction h with
  | nil => simp [Registry.get]
  | cons a t ih =>
    obtain ⟨ka, fa⟩ := a
    have hn2 := List.nodup_cons.1 hn
    by_cases hk : ka = k
    · subst hk
      have : ∀ g, (ka, g) ∉ t := fun g hg => hn2.1 (List.mem_map.2 ⟨(ka, g), hg, rfl⟩)
      simp only [List.mem_cons, Prod.mk.injEq, true_and, Registry.get, if_true, Option.some.injEq,
        this, or_false]
      exact eq_comm
    · have hk2 : ¬ k = ka := fun h => hk h.symm
      simp [Registry.get, hk, hk2, ih hn2.2]

theorem Registry.sum_set_none (w : File → Nat) (h : Registry) (k : String) (f : File)
    (hg : h.get k = none) : Registry.sum w (h.set k f) = Registry.sum w h + w f := by
  induction h with
  | nil => simp [Registry.set, Registry.sum]
  | cons a t ih =>
    obtain ⟨ka, fa⟩ := a
    by_cases hk : ka = k
    · simp [Registry.get, hk] at hg
    · have ht : Registry.get t k = none := by simpa [Registry.get, hk] using hg
      have := ih ht
      simp only [Registry.sum] at this ⊢
      simp only [Registry.set, hk, if_false, List.map_cons, List.sum_cons, this]
      omega

theorem Registry.sum_set_some (w : File → Nat) (h : Registry) (k : String) (f f0 : File)
    (hg : h.get k = some f0) :
    Registry.sum w (h.set k f) + w f0 = Registry.sum w h + w f := by
  induction h with
  | nil => simp [Registry.get] at hg
  | cons a t ih =>
    obtain ⟨ka, fa⟩ := a
    by_cases hk : ka = k
    · have : fa = f0 := by simpa [Registry.get, hk] using hg
      subst this
      simp only [Registry.sum, Registry.set, hk, if_true, List.map_cons, List.sum_cons]
      omega
    · have ht : Registry.get t k = some f0 := by simpa [Registry.get, hk] using hg
      have := ih ht
      simp only [Registry.sum] at this ⊢
      simp only [Registry.set, hk, if_false, List.map_cons, List.sum_cons]
      omega

/-! ## Lemmas on the walk of `ReadTree` -/

theorem readStep_skip (ignoreDot : Bool) (s : Scan) (e : Entry)
    (h : eligible ignoreDot e = false) : readStep ignoreDot s e = s := by
  unfold readStep
  unfold eligible at h
  cases h1 : (e.walkErr.isNone && Valid e)
  · simp
  · cases h2 : (ignoreDot && dotName e)
    · simp [h1, h2] at h
    · simp

theorem readStep_err (ignoreDot : Bool) (s : Scan) (e : Entry) (err : Err)
    (h : eligible ignoreDot e = true) (hh : e.hash = .error err) :
    readStep ignoreDot s e = { s with errors := s.errors ++ [err], bar := s.bar + 1 } := by
  unfold readStep
  unfold eligible at h
  cases h1 : (e.walkErr.isNone && Valid e)
  · simp [h1] at h
  · cases h2 : (ignoreDot && dotName e)
    · simp [hh]
    · simp [h1, h2] at h

theorem readStep_ok (ignoreDot : Bool) (s : Scan) (e : Entry) (d : String)
    (h : eligible ignoreDot e = true) (hh : e.hash = .ok d) :
    readStep ignoreDot s e =
      { h := s.h.set d (match s.h.get d with
                        | none => New d e.path
                        | some f => f.AddPath e.path),
        errors := s.errors, bar := s.bar + 1 } := by
  unfold readStep
  unfold eligible at h
  cases h1 : (e.walkErr.isNone && Valid e)
  · simp [h1] at h
  · cases h2 : (ignoreDot && dotName e)
    · simp only [if_true, Bool.false_eq_true, if_false, hh]
      cases s.h.get d <;> rfl
    · simp [h1, h2] at h

theorem scanTree_append (ignoreDot : Bool) (walk : List Entry) (e : Entry) :
    scanTree (walk ++ [e]) ignoreDot = readStep ignoreDot (scanTree walk ignoreDot) e := by
  simp [scanTree, List.foldl_append]

theorem digestOf_some (ignoreDot : Bool) (e : Entry) (d : String) :
    digestOf ignoreDot e = some d ↔ eligible ignoreDot e = true ∧ e.hash = .ok d := by
  unfold digestOf
  cases h : eligible ignoreDot e
  · simp
  · cases hh : e.hash <;> simp

theorem hashErrOf_some (ignoreDot : Bool) (e : Entry) (err : Err) :
    hashErrOf ignoreDot e = some err ↔ eligible ignoreDot e = true ∧ e.hash = .error err := by
  unfold hashErrOf
  cases h : eligible ignoreDot e
  · simp
  · cases hh : e.hash <;> simp

/-- The three cases of the callback, by what the entry is. -/
theorem entry_cases (ignoreDot : Bool) (e : Entry) :
    (eligible ignoreDot e = false ∧ digestOf ignoreDot e = none ∧ hashErrOf ignoreDot e = none) ∨
    (∃ err, eligible ignoreDot e = true ∧ e.hash = .error err ∧
      digestOf ignoreDot e = none ∧ hashErrOf ignoreDot e = some err) ∨
    (∃ d, eligible ignoreDot e = true ∧ e.hash = .ok d ∧
      digestOf ignoreDot e = some d ∧ hashErrOf ignoreDot e = none) := by
  unfold digestOf hashErrOf
  cases h : eligible ignoreDot e
  · simp
  · cases hh : e.hash <;> simp

theorem pathsOf_append (ignoreDot : Bool) (d : String) (walk : List Entry) (e : Entry) :
    pathsOf ignoreDot d (walk ++ [e]) =
      pathsOf ignoreDot d walk ++ (if digestOf ignoreDot e = some d then [e.path] else []) := by
  unfold pathsOf
  by_cases h : digestOf ignoreDot e = some d <;> simp [List.filter_append, List.filter_cons, h]

/-- What the map of `ReadTree` holds under each digest after a walk. -/
theorem scanTree_get (ignoreDot : Bool) (walk : List Entry) (d : String) :
    (scanTree walk ignoreDot).h.get d =
      if pathsOf ignoreDot d walk = [] then none
      else some { Hash := d, Paths := pathsOf ignoreDot d walk } := by
  induction walk using List.reverseRecOn generalizing d with
  | nil => simp [scanTree, pathsOf, Registry.get]
  | append_singleton l e ih =>
    rw [scanTree_append, pathsOf_append]
    rcases entry_cases ignoreDot e with ⟨h1, h2, -⟩ | ⟨err, h1, hh, h2, -⟩ | ⟨d0, h1, hh, h2, -⟩
    · rw [readStep_skip _ _ _ h1, ih, h2]; simp
    · rw [readStep_err _ _ _ err h1 hh, ih, h2]; simp
    · rw [readStep_ok _ _ _ d0 h1 hh, h2]
      simp only [Registry.get_set]
      by_cases hd : d0 = d
      · subst hd
        rw [ih d0]
        by_cases hp : pathsOf ignoreDot d0 l = []
        · simp [hp, New]
        · simp [hp, File.AddPath]
      · have : ¬ (some d0 = some d) := by simpa using hd
        simp [hd, ih d]

theorem scanTree_errors (ignoreDot : Bool) (walk : List Entry) :
    (scanTree walk ignoreDot).errors = walk.filterMap (hashErrOf ignoreDot) := by
  induction walk using List.reverseRecOn with
  | nil => simp [scanTree]
  | append_singleton l e ih =>
    rw [scanTree_append, List.filterMap_append]
    rcases entry_cases ignoreDot e with ⟨h1, -, h3⟩ | ⟨err, h1, hh, -, h3⟩ | ⟨d0, h1, hh, -, h3⟩
    · rw [readStep_skip _ _ _ h1, ih]; simp [List.filterMap_cons, h3]
    · rw [readStep_err _ _ _ err h1 hh, ih]; simp [List.filterMap_cons, h3]
    · rw [readStep_ok _ _ _ d0 h1 hh, ih]; simp [List.filterMap_cons, h3]

theorem scanTree_keys_nodup (ignoreDot : Bool) (walk : List Entry) :
    ((scanTree walk ignoreDot).h.map Prod.fst).Nodup := by
  induction walk using List.reverseRecOn with
  | nil => simp [scanTree]
  | append_singleton l e ih =>
    rw [scanTree_append]
    rcases entry_cases ignoreDot e with ⟨h1, -, -⟩ | ⟨err, h1, hh, -, -⟩ | ⟨d0, h1, hh, -, -⟩
    · rw [readStep_skip _ _ _ h1]; exact ih
    · rw [readStep_err _ _ _ err h1 hh]; exact ih
    · rw [readStep_ok _ _ _ d0 h1 hh]; exact Registry.nodup_keys_set _ _ _ ih

/-- Membership of a group in the map of `ReadTree`, by digest. -/
theorem scanTree_mem (ignoreDot : Bool) (walk : List Entry) (k : String) (g : File) :
    (k, g) ∈ (scanTree walk ignoreDot).h ↔
      pathsOf ignoreDot k walk ≠ [] ∧ g = { Hash := k, Paths := pathsOf ignoreDot k walk } := by
  rw [Registry.mem_iff_get _ (scanTree_keys_nodup ignoreDot walk), scanTree_get]
  by_cases hp : pathsOf ignoreDot k walk = []
  · simp [hp]
  · simp only [hp, if_false, Option.some.injEq, ne_eq, not_false_eq_true, true_and]
    exact eq_comm

theorem hashedPaths_append (ignoreDot : Bool) (walk : List Entry) (e : Entry) :
    hashedPaths ignoreDot (walk ++ [e]) =
      hashedPaths ignoreDot walk ++ (if (digestOf ignoreDot e).isSome then [e.path] else []) := by
  unfold hashedPaths
  cases h : (digestOf ignoreDot e).isSome <;> simp [List.filter_append, List.filter_cons, h]

/-- Sum over the groups of the map of `ReadTree` of a measure that `New` starts at
`c path` and `AddPath` raises by `c path`: the sum of `c` over the inserted paths. -/
theorem scanTree_sum (ignoreDot : Bool) (walk : List Entry) (w : File → Nat) (c : String → Nat)
    (hnew : ∀ d p, w (New d p) = c p) (hadd : ∀ f p, w (f.AddPath p) = w f + c p) :
    Registry.sum w (scanTree walk ignoreDot).h = ((hashedPaths ignoreDot walk).map c).sum := by
  induction walk using List.reverseRecOn with
  | nil => simp [scanTree, hashedPaths, Registry.sum]
  | append_singleton l e ih =>
    rw [scanTree_append, hashedPaths_append]
    rcases entry_cases ignoreDot e with ⟨h1, h2, -⟩ | ⟨err, h1, hh, h2, -⟩ | ⟨d0, h1, hh, h2, -⟩
    · rw [readStep_skip _ _ _ h1, ih, h2]; simp
    · rw [readStep_err _ _ _ err h1 hh, ih, h2]; simp
    · rw [readStep_ok _ _ _ d0 h1 hh, h2]
      simp only [Option.isSome_some, if_true, List.map_append, List.sum_append, List.map_cons,
        List.map_nil, List.sum_cons, List.sum_nil, Nat.add_zero]
      cases hg : (scanTree l ignoreDot).h.get d0 with
      | none =>
        simp only []
        rw [Registry.sum_set_none w _ _ _ hg, ih, hnew]
      | some f0 =>
        simp only []
        have := Registry.sum_set_some w _ d0 (f0.AddPath e.path) f0 hg
        rw [hadd, ih] at this
        omega

theorem Count_append (ignoreDot : Bool) (walk : List Entry) (e : Entry) :
    Count (walk ++ [e]) ignoreDot = countStep ignoreDot (Count walk ignoreDot) e := by
  simp [Count, List.foldl_append]

theorem countStep_eq (ignoreDot : Bool) (c : Nat) (e : Entry) :
    countStep ignoreDot c e = if eligible ignoreDot e then c + 1 else c := by
  unfold countStep eligible
  cases (e.walkErr.isNone && Valid e) <;> cases (ignoreDot && dotName e) <;> simp

/-- The number of `bar.Increment()` calls of `ReadTree` is the result of `Count`. -/
theorem scanTree_bar (ignoreDot : Bool) (walk : List Entry) :
    (scanTree walk ignoreDot).bar = Count walk ignoreDot := by
  induction walk using List.reverseRecOn with
  | nil => simp [scanTree, Count]
  | append_singleton l e ih =>
    rw [scanTree_append, Count_append, countStep_eq]
    rcases entry_cases ignoreDot e with ⟨h1, -, -⟩ | ⟨err, h1, hh, -, -⟩ | ⟨d0, h1, hh, -, -⟩
    · rw [readStep_skip _ _ _ h1, ih]; simp [h1]
    · rw [readStep_err _ _ _ err h1 hh]; simp [h1, ih]
    · rw [readStep_ok _ _ _ d0 h1 hh]; simp [h1, ih]

theorem Count_eq_length_filter (ignoreDot : Bool) (walk : List Entry) :
    Count walk ignoreDot = (walk.filter (eligible ignoreDot)).length := by
  induction walk using List.reverseRecOn with
  | nil => simp [Count]
  | append_singleton l e ih =>
    rw [Count_append, countStep_eq, ih]
    cases h : eligible ignoreDot e <;> simp [List.filter_append, List.filter_cons, h]

theorem length_hashedPaths_add_errors (ignoreDot : Bool) (walk : List Entry) :
    (hashedPaths ignoreDot walk).length + (walk.filterMap (hashErrOf ignoreDot)).length
      = (walk.filter (eligible ignoreDot)).length := by
  induction walk with
  | nil => simp [hashedPaths]
  | cons e t ih =>
    unfold hashedPaths at ih ⊢
    rcases entry_cases ignoreDot e with ⟨h1, h2, h3⟩ | ⟨err, h1, hh, h2, h3⟩ | ⟨d0, h1, hh, h2, h3⟩
    · simp only [List.filter_cons, h1, h2, h3, List.filterMap_cons, Option.isSome_none,
        Bool.false_eq_true, if_false]
      exact ih
    · simp only [List.filter_cons, h1, h2, h3, List.filterMap_cons, Option.isSome_none,
        Bool.false_eq_true, if_false, if_true, List.length_cons]
      omega
    · simp only [List.filter_cons, h1, h2, h3, List.filterMap_cons, Option.isSome_some,
        if_true, List.map_cons, List.length_cons]
      omega

theorem sum_indicator_eq_count (p : String) (l : List String) :
    (l.map (fun q => if q = p then 1 else 0)).sum = l.count p := by
  induction l with
  | nil => simp
  | cons a t ih =>
    by_cases h : a = p
    · simp [h, ih]; omega
    · simp [h, ih, List.count_cons]

theorem mem_pathsOf (ignoreDot : Bool) (d : String) (walk : List Entry) (p : String) :
    p ∈ pathsOf ignoreDot d walk ↔ ∃ e ∈ walk, digestOf ignoreDot e = some d ∧ e.path = p := by
  simp [pathsOf, List.mem_map, List.mem_filter, and_assoc]

theorem mem_hashedPaths (ignoreDot : Bool) (walk : List Entry) (p : String) :
    p ∈ hashedPaths ignoreDot walk ↔
      ∃ e ∈ walk, (∃ d, digestOf ignoreDot e = some d) ∧ e.path = p := by
  simp [hashedPaths, List.mem_map, List.mem_filter, and_assoc, Option.isSome_iff_exists]

theorem pathsOf_nodup (ignoreDot : Bool) (d : String) (walk : List Entry)
    (hnd : (walk.map Entry.path).Nodup) : (pathsOf ignoreDot d walk).Nodup :=
  List.Nodup.sublist (List.Sublist.map _ (List.filter_sublist _)) hnd

theorem hashedPaths_nodup (ignoreDot : Bool) (walk : List Entry)
    (hnd : (walk.map Entry.path).Nodup) : (hashedPaths ignoreDot walk).Nodup :=
  List.Nodup.sublist (List.Sublist.map _ (List.filter_sublist _)) hnd

theorem entry_eq_of_path_eq (walk : List Entry) (hnd : (walk.map Entry.path).Nodup)
    (e1 e2 : Entry) (h1 : e1 ∈ walk) (h2 : e2 ∈ walk) (hp : e1.path = e2.path) : e1 = e2 :=
  List.inj_on_of_nodup_map hnd h1 h2 hp

theorem Registry.mem_set (h : Registry) (k0 : String) (f : File) (k : String) (g : File)
    (hm : (k, g) ∈ h.set k0 f) : (k = k0 ∧ g = f) ∨ (k, g) ∈ h := by
  induction h with
  | nil => simpa [Registry.set] using hm
  | cons a t ih =>
    obtain ⟨ka, fa⟩ := a
    unfold Registry.set at hm
    by_cases hk : ka = k0
    · simp only [hk, if_true, List.mem_cons, Prod.mk.injEq] at hm
      rcases hm with h1 | h1
      · exact Or.inl h1
      · exact Or.inr (List.mem_cons_of_mem _ h1)
    · simp only [hk, if_false, List.mem_cons] at hm
      rcases hm with h1 | h1
      · exact Or.inr (by rw [h1]; exact List.mem_cons_self _ _)
      · rcases ih h1 with h2 | h2
        · exact Or.inl h2
        · exact Or.inr (List.mem_cons_of_mem _ h2)

theorem Registry.get_mem (h : Registry) (k : String) (f : File) (hg : h.get k = some f) :
    (k, f) ∈ h := by
  induction h with
  | nil => simp [Registry.get] at hg
  | cons a t ih =>
    obtain ⟨ka, fa⟩ := a
    by_cases hk : ka = k
    · have : fa = f := by simpa [Registry.get, hk] using hg
      simp [hk, this]
    · exact List.mem_cons_of_mem _ (ih (by simpa [Registry.get, hk] using hg))

theorem readStep_inv (ignoreDot : Bool) (s : Scan) (e : Entry) (hi : Registry.Inv s.h) :
    Registry.Inv (readStep ignoreDot s e).h := by
  rcases entry_cases ignoreDot e with ⟨h1, -, -⟩ | ⟨err, h1, hh, -, -⟩ | ⟨d0, h1, hh, -, -⟩
  · rw [readStep_skip _ _ _ h1]; exact hi
  · rw [readStep_err _ _ _ err h1 hh]; exact hi
  · rw [readStep_ok _ _ _ d0 h1 hh]
    intro k g hm
    rcases Registry.mem_set _ _ _ _ _ hm with ⟨hk, hg⟩ | hin
    · subst hk hg
      cases hget : s.h.get k with
      | none => simp [New]
      | some f0 =>
        have := hi k f0 (Registry.get_mem _ _ _ hget)
        simp [File.AddPath, this.2]
    · exact hi k g hin

/-! ## Claims on `ReadTree` and `Count` -/

/-- C3. For a walk with pairwise distinct paths, in the registry returned by
`ReadTree` two successfully hashed paths lie in the `Paths` of one group if and
only if their digests are equal; each successfully hashed path occurs exactly
once in the group stored under its digest, in no group stored under another key,
and exactly once over all groups of the registry. -/
theorem ReadTree_groups_by_digest (walk : List Entry) (ignoreDot : Bool)
    (hnd : (walk.map Entry.path).Nodup) :
    (∀ e1 e2 d1 d2, e1 ∈ walk → e2 ∈ walk →
      digestOf ignoreDot e1 = some d1 → digestOf ignoreDot e2 = some d2 →
      ((∃ k g, (k, g) ∈ (ReadTree walk ignoreDot).1 ∧ e1.path ∈ g.Paths ∧ e2.path ∈ g.Paths)
        ↔ d1 = d2)) ∧
    (∀ e d, e ∈ walk → digestOf ignoreDot e = some d →
      (∃ g, (ReadTree walk ignoreDot).1.get d = some g ∧ (d, g) ∈ (ReadTree walk ignoreDot).1 ∧
        g.Paths.count e.path = 1) ∧
      (∀ k g, (k, g) ∈ (ReadTree walk ignoreDot).1 → e.path ∈ g.Paths → k = d) ∧
      Registry.sum (fun g => g.Paths.count e.path) (ReadTree walk ignoreDot).1 = 1) := by
  have huniq : ∀ e d, e ∈ walk → digestOf ignoreDot e = some d →
      ∀ k g, (k, g) ∈ (ReadTree walk ignoreDot).1 → e.path ∈ g.Paths → k = d := by
    intro e d he hd k g hm hp
    obtain ⟨-, hg⟩ := (scanTree_mem ignoreDot walk k g).1 hm
    rw [hg] at hp
    obtain ⟨e1, he1, hd1, hp1⟩ := (mem_pathsOf ignoreDot k walk e.path).1 hp
    have := entry_eq_of_path_eq walk hnd e1 e he1 he hp1
    subst this
    rw [hd] at hd1
    exact (Option.some.inj hd1).symm
  have hin : ∀ e d, e ∈ walk → digestOf ignoreDot e = some d →
      e.path ∈ pathsOf ignoreDot d walk :=
    fun e d he hd => (mem_pathsOf ignoreDot d walk e.path).2 ⟨e, he, hd, rfl⟩
  have hstored : ∀ e d, e ∈ walk → digestOf ignoreDot e = some d →
      ((d, ({ Hash := d, Paths := pathsOf ignoreDot d walk } : File))
        ∈ (ReadTree walk ignoreDot).1) := by
    intro e d he hd
    exact (scanTree_mem ignoreDot walk d _).2 ⟨List.ne_nil_of_mem (hin e d he hd), rfl⟩
  refine ⟨?_, ?_⟩
  · intro e1 e2 d1 d2 h1 h2 hd1 hd2
    constructor
    · rintro ⟨k, g, hm, hp1, hp2⟩
      rw [← huniq e1 d1 h1 hd1 k g hm hp1, ← huniq e2 d2 h2 hd2 k g hm hp2]
    · intro heq
      subst heq
      exact ⟨d1, _, hstored e1 d1 h1 hd1, hin e1 d1 h1 hd1, hin e2 d1 h2 hd2⟩
  · intro e d he hd
    refine ⟨⟨_, ?_, hstored e d he hd, ?_⟩, huniq e d he hd, ?_⟩
    · exact (Registry.mem_iff_get _ (scanTree_keys_nodup ignoreDot walk) _ _).1
        (hstored e d he hd)
    · exact List.count_eq_one_of_mem (pathsOf_nodup ignoreDot d walk hnd) (hin e d he hd)
    · have hs := scanTree_sum ignoreDot walk (fun g => g.Paths.count e.path)
        (fun q => if q = e.path then 1 else 0)
        (by intro d p; by_cases h : p = e.path <;> simp [New, h, List.count_cons])
        (by intro f p; by_cases h : p = e.path <;> simp [File.AddPath, h, List.count_cons])
      show Registry.sum (fun g => g.Paths.count e.path) (scanTree walk ignoreDot).h = 1
      rw [hs, sum_indicator_eq_count]
      exact List.count_eq_one_of_mem (hashedPaths_nodup ignoreDot walk hnd)
        ((mem_hashedPaths ignoreDot walk e.path).2 ⟨e, he, ⟨d, hd⟩, rfl⟩)

/-- Witness of C3 on `sampleWalk`: the paths are pairwise distinct, and `b.txt`
occurs exactly once over all groups, in the group stored under its digest `H`. -/
theorem ReadTree_groups_by_digest_witness :
    (sampleWalk.map Entry.path).Nodup ∧
    (∃ g, (ReadTree sampleWalk false).1.get "H" = some g ∧
      ("H", g) ∈ (ReadTree sampleWalk false).1 ∧ g.Paths.count "b.txt" = 1) ∧
    Registry.sum (fun g => g.Paths.count "b.txt") (ReadTree sampleWalk false).1 = 1 :=
  have h := (ReadTree_groups_by_digest sampleWalk false (by decide)).2
    (regular "b.txt" "b.txt" (.ok "H")) "H"
    (List.Mem.tail _ (List.Mem.tail _ (List.Mem.tail _ (List.Mem.head _)))) (by decide)
  ⟨by decide, h.1, h.2.2⟩

/-- C4. For every walk and every digest `d` present in the registry returned by
`ReadTree`, the `Paths` of the group stored under `d` are, in walk order, exactly
the paths of the entries that pass the filter and hash successfully to `d`;
`AddPath` appends at the end and leaves the earlier paths in place. -/
theorem ReadTree_paths_in_discovery_order (walk : List Entry) (ignoreDot : Bool) :
    (∀ d g, (ReadTree walk ignoreDot).1.get d = some g →
      g.Paths = (walk.filter
        (fun e => decide (digestOf ignoreDot e = some d))).map Entry.path) ∧
    (∀ d g, (d, g) ∈ (ReadTree walk ignoreDot).1 →
      g.Paths = (walk.filter
        (fun e => decide (digestOf ignoreDot e = some d))).map Entry.path) ∧
    (∀ e d, digestOf ignoreDot e = some d ↔ eligible ignoreDot e = true ∧ e.hash = .ok d) ∧
    (∀ (f : File) p, (f.AddPath p).Paths = f.Paths ++ [p]) := by
  refine ⟨?_, ?_, fun e d => digestOf_some ignoreDot e d, fun f p => rfl⟩
  · intro d g hg
    have := scanTree_get ignoreDot walk d
    simp only [ReadTree] at hg
    rw [hg] at this
    by_cases hp : pathsOf ignoreDot d walk = []
    · simp [hp] at this
    · simp only [hp, if_false, Option.some.injEq] at this
      rw [this]
      rfl
  · intro d g hm
    rw [((scanTree_mem ignoreDot walk d g).1 hm).2]
    rfl

/-- Witness of C4 on `sampleWalk`: the group stored under `H` lists `a.txt` before
`b.txt`, the order in which the walk met them. -/
theorem ReadTree_paths_in_discovery_order_witness :
    (ReadTree sampleWalk false).1.get "H" = some { Hash := "H", Paths := ["a.txt", "b.txt"] } ∧
    ["a.txt", "b.txt"] = (sampleWalk.filter
        (fun e => decide (digestOf false e = some "H"))).map Entry.path :=
  ⟨by decide,
    (ReadTree_paths_in_discovery_order sampleWalk false).1 "H"
      { Hash := "H", Paths := ["a.txt", "b.txt"] } (by decide)⟩

/-- C5. The registry invariant (every stored group has a non-empty `Paths` and a
`Hash` equal to its key) holds of the empty map, is kept by every call of the walk
callback of `ReadTree`, and so holds of the registry `ReadTree` returns; `New`
builds a group with one path and the given hash, and `AddPath` keeps the `Hash`
and leaves `Paths` non-empty. -/
theorem registry_invariant_kept :
    (∀ d p, (New d p).Paths = [p] ∧ (New d p).Hash = d) ∧
    (∀ (f : File) p, (f.AddPath p).Hash = f.Hash ∧ (f.AddPath p).Paths ≠ []) ∧
    Registry.Inv [] ∧
    (∀ ignoreDot s e, Registry.Inv s.h → Registry.Inv (readStep ignoreDot s e).h) ∧
    (∀ walk ignoreDot, Registry.Inv (ReadTree walk ignoreDot).1) := by
  refine ⟨fun d p => ⟨rfl, rfl⟩, fun f p => ⟨rfl, by simp [File.AddPath]⟩, ?_,
    fun ignoreDot s e => readStep_inv ignoreDot s e, ?_⟩
  · intro k g hm
    cases hm
  · intro walk ignoreDot
    show Registry.Inv (scanTree walk ignoreDot).h
    induction walk using List.reverseRecOn with
    | nil =>
      intro k g hm
      simp [scanTree] at hm
    | append_singleton l e ih =>
      rw [scanTree_append]
      exact readStep_inv ignoreDot _ e ih

/-- Witness of C5 on `sampleWalk`: the invariant holds of the returned registry,
and one more call of the callback keeps it. -/
theorem registry_invariant_kept_witness :
    Registry.Inv (ReadTree sampleWalk false).1 ∧
    Registry.Inv (readStep false (scanTree sampleWalk false)
      (regular "d.txt" "d.txt" (.ok "W"))).h :=
  ⟨registry_invariant_kept.2.2.2.2 sampleWalk false,
    registry_invariant_kept.2.2.2.1 false (scanTree sampleWalk false)
      (regular "d.txt" "d.txt" (.ok "W")) (registry_invariant_kept.2.2.2.2 sampleWalk false)⟩

/-- C6. When hashing an entry that passes the filter fails, `ReadTree` appends the
error and goes on: the returned errors are exactly the hash failures, in walk
order; every path of every group comes from an entry that passed the filter and
hashed successfully to the group's key, so that, the paths of a walk being
pairwise distinct, no path whose hash failed is in any group; and every entry
that passes the filter and hashes successfully, wherever it stands in the walk
relative to the failures, is in the group stored under its digest. -/
theorem ReadTree_records_hash_failures_and_continues (walk : List Entry) (ignoreDot : Bool) :
    (ReadTree walk ignoreDot).2 = walk.filterMap (hashErrOf ignoreDot) ∧
    (∀ e err, hashErrOf ignoreDot e = some err ↔
      eligible ignoreDot e = true ∧ e.hash = .error err) ∧
    (∀ k g p, (k, g) ∈ (ReadTree walk ignoreDot).1 → p ∈ g.Paths →
      ∃ e ∈ walk, e.path = p ∧ eligible ignoreDot e = true ∧ e.hash = .ok k) ∧
    ((walk.map Entry.path).Nodup → ∀ e ∈ walk, eligible ignoreDot e = true →
      ∀ err, e.hash = .error err →
        ∀ k g, (k, g) ∈ (ReadTree walk ignoreDot).1 → e.path ∉ g.Paths) ∧
    (∀ pre bad post e d, walk = pre ++ bad :: post → e ∈ post →
      eligible ignoreDot e = true → e.hash = .ok d →
        ∃ g, (d, g) ∈ (ReadTree walk ignoreDot).1 ∧ e.path ∈ g.Paths) ∧
    (∀ e ∈ walk, eligible ignoreDot e = true → ∀ d, e.hash = .ok d →
      ∃ g, (d, g) ∈ (ReadTree walk ignoreDot).1 ∧ e.path ∈ g.Paths) := by
  have hsrc : ∀ k g p, (k, g) ∈ (ReadTree walk ignoreDot).1 → p ∈ g.Paths →
      ∃ e ∈ walk, e.path = p ∧ eligible ignoreDot e = true ∧ e.hash = .ok k := by
    intro k g p hm hp
    rw [((scanTree_mem ignoreDot walk k g).1 hm).2] at hp
    obtain ⟨e, he, hd, hpe⟩ := (mem_pathsOf ignoreDot k walk p).1 hp
    exact ⟨e, he, hpe, (digestOf_some ignoreDot e k).1 hd⟩
  have hall : ∀ e ∈ walk, eligible ignoreDot e = true → ∀ d, e.hash = .ok d →
      ∃ g, (d, g) ∈ (ReadTree walk ignoreDot).1 ∧ e.path ∈ g.Paths := by
    intro e he hel d hd
    have hin : e.path ∈ pathsOf ignoreDot d walk :=
      (mem_pathsOf ignoreDot d walk e.path).2 ⟨e, he, (digestOf_some ignoreDot e d).2 ⟨hel, hd⟩, rfl⟩
    exact ⟨_, (scanTree_mem ignoreDot walk d _).2 ⟨List.ne_nil_of_mem hin, rfl⟩, hin⟩
  refine ⟨scanTree_errors ignoreDot walk, fun e err => hashErrOf_some ignoreDot e err, hsrc,
    ?_, ?_, hall⟩
  · intro hnd e he _ err herr k g hm hp
    obtain ⟨e1, he1, hp1, -, hok⟩ := hsrc k g e.path hm hp
    have := entry_eq_of_path_eq walk hnd e1 e he1 he hp1
    subst this
    rw [herr] at hok
    cases hok
  · intro pre bad post e d hw he hel hd
    exact hall e (by rw [hw]; simp [he]) hel d hd

/-- Witness of C6 on `sampleWalk`: the one hash failure, on `x.bin`, is the
returned error; `x.bin` is in no group; and `b.txt`, met after the failure, is in
the group stored under `H`. -/
theorem ReadTree_records_hash_failures_and_continues_witness :
    (ReadTree sampleWalk false).2 = [Err.path "open" "x.bin" "permission denied"] ∧
    (∀ k g, (k, g) ∈ (ReadTree sampleWalk false).1 → "x.bin" ∉ g.Paths) ∧
    (∃ g, ("H", g) ∈ (ReadTree sampleWalk false).1 ∧ "b.txt" ∈ g.Paths) :=
  have h := ReadTree_records_hash_failures_and_continues sampleWalk false
  ⟨h.1.trans (by decide),
    h.2.2.2.1 (by decide)
      (regular "x.bin" "x.bin" (.error (Err.path "open" "x.bin" "permission denied")))
      (List.Mem.tail _ (List.Mem.head _)) (by decide) _ rfl,
    h.2.2.2.2.1 [regular "a.txt" "a.txt" (.ok "H")]
      (regular "x.bin" "x.bin" (.error (Err.path "open" "x.bin" "permission denied")))
      _ (regular "b.txt" "b.txt" (.ok "H")) "H" rfl
      (List.Mem.tail _ (List.Mem.head _)) (by decide) rfl⟩

/-- C10. Over the same walk, for both values of `ignoreDot`, `Count` is the number
of entries `ReadTree` hashes: the number of paths over all groups of the returned
registry plus the number of returned errors. It is also the number of entries
that pass the shared filter, and the number of times `ReadTree` advances its
progress bar. -/
theorem Count_eq_ReadTree_hashed (walk : List Entry) (ignoreDot : Bool) :
    Count walk ignoreDot
      = Registry.sum (fun g => g.Paths.length) (ReadTree walk ignoreDot).1
        + (ReadTree walk ignoreDot).2.length ∧
    Count walk ignoreDot = (walk.filter (eligible ignoreDot)).length ∧
    Count walk ignoreDot = (scanTree walk ignoreDot).bar := by
  refine ⟨?_, Count_eq_length_filter ignoreDot walk, (scanTree_bar ignoreDot walk).symm⟩
  have hs := scanTree_sum ignoreDot walk (fun g => g.Paths.length) (fun _ => 1)
    (fun d p => rfl) (fun f p => by simp [File.AddPath])
  show _ = Registry.sum (fun g => g.Paths.length) (scanTree walk ignoreDot).h
    + (scanTree walk ignoreDot).errors.length
  rw [hs, scanTree_errors, Count_eq_length_filter, ← length_hashedPaths_add_errors]
  simp

/-! ## Lemmas on the run loop -/

theorem Atoi_digits (ds : List Char) (hd : isDigits ds)
    (hr : digitsValue ds < 9223372036854775808) :
    Atoi (String.mk ds) = ((digitsValue ds : Int), none) := by
  obtain ⟨hne, hall⟩ := hd
  obtain ⟨c, t, rfl⟩ := List.exists_cons_of_ne_nil hne
  have hc := hall c (List.mem_cons_self _ _)
  have hminus : c ≠ '-' := by
    intro h; rw [h] at hc; revert hc; decide
  have hplus : c ≠ '+' := by
    intro h; rw [h] at hc; revert hc; decide
  have hany : (c :: t).any (fun c => !(decide (48 ≤ c.toNat) && decide (c.toNat ≤ 57))) = false := by
    rw [List.any_eq_false]
    intro x hx
    have := hall x hx
    simp [this.1, this.2]
  unfold Atoi
  simp only [List.head?_cons, Option.some.injEq, hminus, hplus, or_self, if_false,
    decide_False, Bool.false_eq_true, hany, reduceCtorEq]
  simpa [digitsValue] using hr

theorem Atoi_minus_digits (ds : List Char) (hd : isDigits ds)
    (hr : digitsValue ds ≤ 9223372036854775808) :
    Atoi (String.mk ('-' :: ds)) = (-(digitsValue ds : Int), none) := by
  obtain ⟨hne, hall⟩ := hd
  have hany : ds.any (fun c => !(decide (48 ≤ c.toNat) && decide (c.toNat ≤ 57))) = false := by
    rw [List.any_eq_false]
    intro x hx
    have := hall x hx
    simp [this.1, this.2]
  have hgt : ¬ (digitsValue ds > 9223372036854775808) := by omega
  unfold Atoi
  simp only [digitsValue] at hgt
  simp only [Atoi, List.head?_cons, true_or, if_true, List.tail_cons, hne, false_or, hany,
    Bool.false_eq_true, if_false, decide_True, digitsValue, hgt]

theorem runGroup_keep (yes : String → Bool) (answers : Nat → String) (r : File) (s : Session)
    (hdup : r.Paths.length > 1)
    (hgo : ((Atoi (answers s.read)).2.isSome && !yes (answers s.read)
      && decide (answers s.read ≠ "")) = false) :
    runGroup false yes answers r s = keepOutcome r (Atoi (answers s.read)).1 s := by
  unfold runGroup keepOutcome afterPrompt
  simp only [hdup, if_true, Bool.false_eq_true, if_false, hgo, List.append_nil]
  cases h : (r.Keep (Atoi (answers s.read)).1 s.fs) with
  | mk fs1 e =>
    cases e <;> simp

theorem runGroup_decline (yes : String → Bool) (answers : Nat → String) (r : File) (s : Session)
    (hdup : r.Paths.length > 1)
    (hno : ((Atoi (answers s.read)).2.isSome && !yes (answers s.read)
      && decide (answers s.read ≠ "")) = true) :
    runGroup false yes answers r s = declineOutcome r s := by
  unfold runGroup declineOutcome afterPrompt
  simp only [hdup, if_true, Bool.false_eq_true, if_false, hno, List.append_assoc]

theorem runGroup_errors (findOnly : Bool) (yes : String → Bool) (answers : Nat → String)
    (r : File) (s : Session) : (runGroup findOnly yes answers r s).1.errors = s.errors := by
  unfold runGroup
  by_cases h1 : r.Paths.length > 1
  · cases findOnly
    · cases h2 : ((Atoi (answers s.read)).2.isSome && !yes (answers s.read)
          && decide (answers s.read ≠ ""))
      · simp only [h1, if_true, Bool.false_eq_true, if_false, h2]
        split <;> simp
      · simp only [h1, if_true, Bool.false_eq_true, if_false, h2]
    · simp only [h1, if_true]
  · simp only [h1, if_false]

/-- The loop never changes the slice `errors`. -/
theorem runGroups_errors (findOnly : Bool) (yes : String → Bool) (answers : Nat → String)
    (data : List (String × File)) (s : Session) :
    (runGroups findOnly yes answers data s).1.errors = s.errors := by
  induction data generalizing s with
  | nil => rfl
  | cons a t ih =>
    obtain ⟨k, r⟩ := a
    unfold runGroups
    have h1 := runGroup_errors findOnly yes answers r s
    cases hg : runGroup findOnly yes answers r s with
    | mk s1 b =>
      rw [hg] at h1
      cases b
      · simp only []
        rw [ih s1]; exact h1
      · exact h1

theorem Atoi_syntax_error_value (a : String)
    (h : (Atoi a).2 = some (Err.num a "invalid syntax")) : (Atoi a).1 = 0 := by
  have hstr : ¬ ("value out of range" = "invalid syntax") := by decide
  unfold Atoi at h ⊢
  simp only [] at h ⊢
  generalize (if a.data.head? = some '-' ∨ a.data.head? = some '+' then a.data.tail
    else a.data) = ds at h ⊢
  by_cases hs : ds = [] ∨
      ds.any (fun c => !(decide (48 ≤ c.toNat) && decide (c.toNat ≤ 57))) = true
  · rw [if_pos hs]
  · rw [if_neg hs] at h
    by_cases hn : decide (a.data.head? = some '-') = true
    · rw [if_pos hn] at h
      by_cases hr : List.foldl (fun a c => a * 10 + (c.toNat - 48)) 0 ds > 9223372036854775808
      · rw [if_pos hr] at h
        simp only [Option.some.injEq, Err.num.injEq, true_and] at h
        exact absurd h hstr
      · rw [if_neg hr] at h
        cases h
    · rw [if_neg hn] at h
      by_cases hr : List.foldl (fun a c => a * 10 + (c.toNat - 48)) 0 ds ≥ 9223372036854775808
      · rw [if_pos hr] at h
        simp only [Option.some.injEq, Err.num.injEq, true_and] at h
        exact absurd h hstr
      · rw [if_neg hr] at h
        cases h

/-- The scan of `sampleWalk` followed by the decision `1` for its one duplicate
group: `a.txt` is removed and `b.txt` kept, `c.txt` is alone in its group and is
never prompted for, and the summary lists the scan error. -/
theorem Run_sampleWalk_keep_second :
    (Run sampleWalk false false sampleYes (fun _ => "1")
        { present := ["a.txt", "b.txt", "c.txt", "x.bin"], locked := [], log := [] }).fs
      = { present := ["b.txt", "c.txt", "x.bin"], locked := [], log := ["a.txt"] } ∧
    (Run sampleWalk false false sampleYes (fun _ => "1")
        { present := ["a.txt", "b.txt", "c.txt", "x.bin"], locked := [], log := [] }).read = 1 ∧
    summaryHeader ∈ (Run sampleWalk false false sampleYes (fun _ => "1")
        { present := ["a.txt", "b.txt", "c.txt", "x.bin"], locked := [], log := [] }).out := by
  decide

/-! ## Claims on the run loop -/

/-- C8, refuted as stated: the decision `-1` parses as a negative integer and is not
a decline. The loop body calls `Keep(-1)`, and here both files of the group are
removed. -/
theorem negative_decision_is_not_a_decline :
    Atoi "-1" = (-1, none) ∧
    runGroup false sampleYes (fun _ => "-1") groupH session0 ≠ declineOutcome groupH session0 ∧
    runGroup false sampleYes (fun _ => "-1") groupH session0 = keepOutcome groupH (-1) session0 ∧
    (RunOn false sampleYes (fun _ => "-1") [("H", groupH)] []
        { present := ["a", "b", "c"], locked := [], log := [] }).fs
      = { present := ["c"], locked := [], log := ["a", "b"] } := by
  decide

/-- C8, amended. For a duplicate group read at the prompt: the empty string, and a
string that matches the affirmative pattern and that `Atoi` rejects as not a
numeral, resolve as keep index 0; a string that `Atoi` parses as an integer
resolves as `Keep` called on that integer, which is the number written for a
string of digits and its opposite for a string of digits after a minus sign;
every other string (not parsed, not affirmative, not empty) is a decline, after
which the filesystem is as before, no removal having been attempted. -/
theorem decision_string_resolution (yes : String → Bool) (answers : Nat → String)
    (r : File) (s : Session) (hdup : r.Paths.length > 1) :
    (answers s.read = "" → runGroup false yes answers r s = keepOutcome r 0 s) ∧
    (yes (answers s.read) = true →
      (Atoi (answers s.read)).2 = some (Err.num (answers s.read) "invalid syntax") →
      runGroup false yes answers r s = keepOutcome r 0 s) ∧
    (∀ n, Atoi (answers s.read) = (n, none) →
      runGroup false yes answers r s = keepOutcome r n s) ∧
    ((Atoi (answers s.read)).2 ≠ none → yes (answers s.read) = false → answers s.read ≠ "" →
      runGroup false yes answers r s = declineOutcome r s ∧
      (runGroup false yes answers r s).1.fs = s.fs ∧
      (runGroup false yes answers r s).2 = false) ∧
    (∀ ds, isDigits ds → digitsValue ds < 9223372036854775808 →
      Atoi (String.mk ds) = ((digitsValue ds : Int), none)) ∧
    (∀ ds, isDigits ds → digitsValue ds ≤ 9223372036854775808 →
      Atoi (String.mk ('-' :: ds)) = (-(digitsValue ds : Int), none)) := by
  refine ⟨?_, ?_, ?_, ?_, fun ds hd hr => Atoi_digits ds hd hr,
    fun ds hd hr => Atoi_minus_digits ds hd hr⟩
  · intro he
    have h0 : (Atoi (answers s.read)).1 = 0 := by rw [he]; decide
    rw [runGroup_keep yes answers r s hdup (by simp [he]), h0]
  · intro hy hsyn
    rw [runGroup_keep yes answers r s hdup (by simp [hy]), Atoi_syntax_error_value _ hsyn]
  · intro n hn
    rw [runGroup_keep yes answers r s hdup (by simp [hn]), hn]
  · intro herr hy hne
    have hno : ((Atoi (answers s.read)).2.isSome && !yes (answers s.read)
        && decide (answers s.read ≠ "")) = true := by
      have : (Atoi (answers s.read)).2.isSome = true := Option.isSome_iff_ne_none.2 herr
      simp [this, hy, hne]
    rw [runGroup_decline yes answers r s hdup hno]
    exact ⟨rfl, rfl, rfl⟩

/-- Witness of C8 as amended: at the answer `n`, which `Atoi` rejects and which is
neither affirmative nor empty, the body declines and leaves the filesystem as it
was. -/
theorem decision_string_resolution_witness :
    groupH.Paths.length > 1 ∧
    runGroup false sampleYes (fun _ => "n") groupH session0 = declineOutcome groupH session0 ∧
    (runGroup false sampleYes (fun _ => "n") groupH session0).1.fs = session0.fs ∧
    (runGroup false sampleYes (fun _ => "n") groupH session0).2 = false :=
  ⟨by decide,
    (decision_string_resolution sampleYes (fun _ => "n") groupH session0 (by decide)).2.2.2.1
      (by decide) (by decide) (by decide)⟩

/-- C9, evaluated on the code: two duplicate groups, the answer to every prompt
being the empty line, one scan error, and a filesystem that refuses the removal of
`b` and `d`. In both visiting orders the run reads one line only: the first failing
`Keep` ends it. The second group is not visited, the summary header is not
printed, and `errors` still holds the scan error alone. -/
theorem Keep_failure_ends_the_run :
    (RunOn false sampleYes (fun _ => "") [("H", groupH), ("W", groupW)]
        [Err.path "open" "x.bin" "permission denied"] refusingFS).read = 1 ∧
    summaryHeader ∉ (RunOn false sampleYes (fun _ => "") [("H", groupH), ("W", groupW)]
        [Err.path "open" "x.bin" "permission denied"] refusingFS).out ∧
    (RunOn false sampleYes (fun _ => "") [("H", groupH), ("W", groupW)]
        [Err.path "open" "x.bin" "permission denied"] refusingFS).errors
      = [Err.path "open" "x.bin" "permission denied"] ∧
    (RunOn false sampleYes (fun _ => "") [("H", groupH), ("W", groupW)]
        [Err.path "open" "x.bin" "permission denied"] refusingFS).fs
      = { refusingFS with log := ["b"] } ∧
    (RunOn false sampleYes (fun _ => "") [("W", groupW), ("H", groupH)]
        [Err.path "open" "x.bin" "permission denied"] refusingFS).read = 1 ∧
    summaryHeader ∉ (RunOn false sampleYes (fun _ => "") [("W", groupW), ("H", groupH)]
        [Err.path "open" "x.bin" "permission denied"] refusingFS).out ∧
    (RunOn false sampleYes (fun _ => "") [("W", groupW), ("H", groupH)]
        [Err.path "open" "x.bin" "permission denied"] refusingFS).errors
      = [Err.path "open" "x.bin" "permission denied"] ∧
    (RunOn false sampleYes (fun _ => "") [("W", groupW), ("H", groupH)]
        [Err.path "open" "x.bin" "permission denied"] refusingFS).fs
      = { refusingFS with log := ["d"] } := by
  decide

end Dupes
